import Mathlib

/-!
Verification of the k-means / k-means++ implementation
(`k_means.py`, `kmeans.py`, `kmeanspp.py`, `tester.py`).

Vectors are embedded as `List ℚ`.  The source computes Euclidean
distances `euclidean p q = sqrt (Σ (a-b)^2)` with Python floats; every
use of a distance in the program is an order comparison (against the
running best in the assignment step, against `eps` in the convergence
test).  Since `sqrt` is strictly monotone on nonnegative reals, the
embedding compares squared distances (and compares against `eps` via
`0 < eps ∧ shift² < eps²`, which is exactly `sqrt shift² < eps`), so
the control flow of the embedding is the control flow of the source
under exact real arithmetic.
-/

/-- Squared Euclidean distance.  The source function `euclidean p1 p2`
returns `(Σ (a-b)^2) ** 0.5`; this is the quantity under the root. -/
def euclidean_sq (p1 p2 : List ℚ) : ℚ :=
  (List.zipWith (fun a b => (a - b) ^ 2) p1 p2).sum

/-- Comparison `sqrt s < e` for `s ≥ 0`, expressed without square roots:
for nonnegative `s`, `sqrt s < e` iff `0 < e` and `s < e ^ 2`. -/
def sqrtLtB (s e : ℚ) : Bool :=
  decide (0 < e) && decide (s < e ^ 2)

/-- The comparison `dist < best_dist` of the assignment step.
`best_dist` starts as `float("inf")` (embedded as `none`), so the
comparison is true there; both sides are square roots, so on `some`
values comparing the squares is exact. -/
def ltInf (d : ℚ) : Option ℚ → Bool
  | none => true
  | some b => decide (d < b)

/-- The inner loop of the assignment step: scan the centroids left to
right carrying the running state `(best_k, best_dist)` of the source. -/
def scanBest (p : List ℚ) : List (List ℚ) → Nat → Nat × Option ℚ → Nat × Option ℚ
  | [], _, s => s
  | c :: rest, k, s =>
      if ltInf (euclidean_sq p c) s.2 then
        scanBest p rest (k + 1) (k, some (euclidean_sq p c))
      else
        scanBest p rest (k + 1) s

/-- Index of the centroid a point is assigned to:
`best_k` after the scan starting from `(0, float("inf"))`. -/
def bestIndex (p : List ℚ) (cs : List (List ℚ)) : Nat :=
  (scanBest p cs 0 (0, none)).1

/-- `clusters[k]` after the assignment step: the points, in input
order, whose best index is `k` (the source appends each point to
`clusters[best_k]`). -/
def clusterOf (points cs : List (List ℚ)) (k : Nat) : List (List ℚ) :=
  points.filter (fun p => bestIndex p cs == k)

/-- Coordinate-wise sums of a cluster: `sums` after the loop
`for vec in cluster: for i in range(dim): sums[i] += vec[i]`,
starting from `[0.0] * dim`. -/
def sumCoords (dim : Nat) (cluster : List (List ℚ)) : List ℚ :=
  cluster.foldl
    (fun sums vec => (List.range dim).map (fun i => sums.getD i 0 + vec.getD i 0))
    (List.replicate dim 0)

/-- `[s / len(cluster) for s in sums]`. -/
def clusterMean (dim : Nat) (cluster : List (List ℚ)) : List ℚ :=
  (sumCoords dim cluster).map (fun s => s / (cluster.length : ℚ))

/-- The update step: for every `k in range(K)`, the mean of cluster `k`
if it is nonempty, otherwise the previous centroid `centroids[k]`. -/
def updateStep (points : List (List ℚ)) (K dim : Nat) (cs : List (List ℚ)) : List (List ℚ) :=
  (List.range K).map (fun k =>
    let cluster := clusterOf points cs k
    if cluster.isEmpty then cs.getD k [] else clusterMean dim cluster)

/-- `largest_shift` squared: the source takes the Python `max` of the
`K` shift values `euclidean(old, new)`; with at least one centroid the
list is nonempty and every entry is nonnegative, so folding `max` from
`0` over the squared shifts computes the square of that maximum. -/
def maxShiftSq (old new : List (List ℚ)) : ℚ :=
  (List.zipWith euclidean_sq old new).foldl max 0

/-- The convergence test `largest_shift < eps`. -/
def convergedb (eps : ℚ) (old new : List (List ℚ)) : Bool :=
  sqrtLtB (maxShiftSq old new) eps

/-- The `for _ in range(max_iter)` loop of `kmeans`: assignment +
update, then `break` (returning the centroids from *before* the
update) when the convergence test passes, else continue with the new
centroids; when the budget is exhausted the last computed centroids
are returned. -/
def kmeansLoop (points : List (List ℚ)) (K dim : Nat) (eps : ℚ) :
    Nat → List (List ℚ) → List (List ℚ)
  | 0, cs => cs
  | Nat.succ n, cs =>
      let ncs := updateStep points K dim cs
      if convergedb eps cs ncs then cs
      else kmeansLoop points K dim eps n ncs

/-- `kmeans(points, K, max_iter, eps)`: dimension is taken from the
first point, the initial centroids are (copies of) the first `K`
points. -/
def kmeans (points : List (List ℚ)) (K : Nat) (max_iter : Nat) (eps : ℚ) : List (List ℚ) :=
  kmeansLoop points K (points.headD []).length eps max_iter (points.take K)

/-- Pure iteration of the assignment+update step, with no convergence
test: the state of the source loop after `n` non-breaking iterations. -/
def stepN (points : List (List ℚ)) (K dim : Nat) : Nat → List (List ℚ) → List (List ℚ)
  | 0, cs => cs
  | Nat.succ n, cs => stepN points K dim n (updateStep points K dim cs)

/-- Within-cluster sum of squares: the Lloyd objective, the sum over
all points of the squared distance to the centroid each point is
assigned to. -/
def cost (points cs : List (List ℚ)) : ℚ :=
  (points.map (fun p => euclidean_sq p (cs.getD (bestIndex p cs) []))).sum

/-!
The k-means++ seeding of `kmeanspp.py`.  The function `kmeans_pp_init`
uses numpy's global pseudo-random generator; the generator is not part
of the repository, so it is modelled as an explicitly threaded state:
a deterministic state type with a deterministic transition, a uniform
draw, and a weighted draw by inverse CDF.  `np.random.seed(seed)` sets
the state as a function of the seed alone, so `kmeans_pp_init`, which
begins with `np.random.seed(1234)`, ignores the incoming state.
Draws that numpy rejects with an exception (an empty range, or a
probability vector that is not nonnegative of total mass 1 — in
particular the all-`0/0` vector arising from a zero distance total)
are modelled as `none`.
-/

/-- State of the modelled global numpy generator. -/
structure RNG where
  state : Nat
deriving DecidableEq

/-- Modelled `np.random.seed seed`: the resulting generator state is a
function of the seed alone. -/
def npSeed (seed : Nat) : RNG := ⟨seed⟩

/-- One raw draw of the modelled generator: a 32-bit value and the
next state (a 64-bit linear congruential mixing, standing in for the
Mersenne Twister). -/
def rngStep (g : RNG) : Nat × RNG :=
  (g.state % 4294967296,
   ⟨(6364136223846793005 * g.state + 1442695040888963407) % 18446744073709551616⟩)

/-- Modelled `np.random.choice n` (uniform over `range n`); numpy
raises on an empty range. -/
def npChoiceUniform (n : Nat) (g : RNG) : Option (Nat × RNG) :=
  if n = 0 then none
  else
    let (r, g2) := rngStep g
    some (r % n, g2)

/-- A unit-interval draw `u ∈ [0, 1)` of the modelled generator. -/
def rngUnit (g : RNG) : ℚ × RNG :=
  let (r, g2) := rngStep g
  ((r : ℚ) / 4294967296, g2)

/-- Inverse-CDF selection: the least index `i` with
`u < p 0 + ⋯ + p i`, accumulating from `acc` and counting from `i`. -/
def cumPick (u : ℚ) : List ℚ → ℚ → Nat → Nat
  | [], _, i => i
  | q :: rest, acc, i => if u < acc + q then i else cumPick u rest (acc + q) (i + 1)

/-- Modelled `np.random.choice n (p := probs)`: numpy validates that
`probs` has length `n`, is nonnegative and has total mass 1 (an
all-`0/0` vector — NaN entries — fails this validation), raising
otherwise; then it draws by inverse CDF. -/
def npChoiceWeighted (n : Nat) (p : List ℚ) (g : RNG) : Option (Nat × RNG) :=
  if (p.length == n) && p.all (fun q => decide (0 ≤ q)) && decide (p.sum = 1) then
    let (u, g2) := rngUnit g
    some (cumPick u p 0 0, g2)
  else none

/-- For one point `p`, `np.min` over the chosen indices of the squared
distance to the corresponding chosen point: the entry of
`np.min(np.linalg.norm(points - points[indices][:, None], axis=2) ** 2, axis=0)`
for that point (`norm` followed by `** 2` is the squared Euclidean
distance exactly). -/
def minSqDistTo (points : List (List ℚ)) (idxs : List Nat) (p : List ℚ) : ℚ :=
  match idxs.map (fun i => euclidean_sq p (points.getD i [])) with
  | [] => 0
  | d :: ds => ds.foldl min d

/-- The `dists` vector of one seeding round: for every point its
minimum squared distance to the centres chosen so far. -/
def ppDists (points : List (List ℚ)) (idxs : List Nat) : List ℚ :=
  points.map (minSqDistTo points idxs)

/-- The `for _ in range(1, K)` loop of `kmeans_pp_init`: in each round
compute `dists`, divide by their total to get `probs`, and draw the
next index with `np.random.choice(N, p=probs)`. -/
def ppRounds (points : List (List ℚ)) (N : Nat) :
    Nat → List Nat → RNG → Option (List Nat)
  | 0, idxs, _ => some idxs
  | Nat.succ t, idxs, g =>
      let dists := ppDists points idxs
      let probs := dists.map (fun d => d / dists.sum)
      match npChoiceWeighted N probs g with
      | none => none
      | some (j, g2) => ppRounds points N t (idxs ++ [j]) g2

/-- `kmeans_pp_init(points, K)`: reseed the global generator with the
constant 1234, choose the first centre uniformly, then `K - 1` more
rounds by squared-distance-weighted sampling; returns the list of
chosen indices.  The incoming generator state `g0` is the global numpy
state before the call. -/
def kmeans_pp_init (g0 : RNG) (points : List (List ℚ)) (K : Nat) : Option (List Nat) :=
  let g := npSeed 1234
  let N := points.length
  match npChoiceUniform N g with
  | none => none
  | some (idx0, g1) => ppRounds points N (K - 1) [idx0] g1

/-!  General lemmas about the assignment scan.  -/

lemma scanBest_some (p : List ℚ) (rest : List (List ℚ)) :
    ∀ (k bk : Nat) (b : ℚ),
      ∃ r v, scanBest p rest k (bk, some b) = (r, some v) ∧ v ≤ b ∧
        ((r = bk ∧ v = b) ∨
          ∃ j, j < rest.length ∧ r = k + j ∧ v = euclidean_sq p (rest.getD j [])) ∧
        (∀ j, j < rest.length → v ≤ euclidean_sq p (rest.getD j [])) := by
  induction rest with
  | nil =>
      intro k bk b
      exact ⟨bk, b, rfl, le_rfl, Or.inl ⟨rfl, rfl⟩, fun j hj => absurd hj (by simp)⟩
  | cons c rest ih =>
      intro k bk b
      by_cases h : euclidean_sq p c < b
      · obtain ⟨r, v, heq, hvb, hloc, hall⟩ := ih (k + 1) k (euclidean_sq p c)
        refine ⟨r, v, ?_, hvb.trans h.le, ?_, ?_⟩
        · rw [scanBest, if_pos (by simp [ltInf, h])]
          exact heq
        · rcases hloc with ⟨hr, hv⟩ | ⟨j, hj, hr, hv⟩
          · exact Or.inr ⟨0, by simp, by omega, by simpa using hv⟩
          · exact Or.inr ⟨j + 1, by simpa using hj, by omega, by simpa using hv⟩
        · intro j hj
          cases j with
          | zero => simpa using hvb
          | succ j => simpa using hall j (by simpa using hj)
      · obtain ⟨r, v, heq, hvb, hloc, hall⟩ := ih (k + 1) bk b
        refine ⟨r, v, ?_, hvb, ?_, ?_⟩
        · rw [scanBest, if_neg (by simp [ltInf, h])]
          exact heq
        · rcases hloc with ⟨hr, hv⟩ | ⟨j, hj, hr, hv⟩
          · exact Or.inl ⟨hr, hv⟩
          · exact Or.inr ⟨j + 1, by simpa using hj, by omega, by simpa using hv⟩
        · intro j hj
          cases j with
          | zero => simpa using hvb.trans (not_lt.mp h)
          | succ j => simpa using hall j (by simpa using hj)

lemma scanBest_stay (p : List ℚ) (rest : List (List ℚ)) :
    ∀ (k bk : Nat) (b : ℚ),
      (∀ j, j < rest.length → b ≤ euclidean_sq p (rest.getD j [])) →
      scanBest p rest k (bk, some b) = (bk, some b) := by
  induction rest with
  | nil => intro k bk b _; rfl
  | cons c rest ih =>
      intro k bk b hle
      have hc : b ≤ euclidean_sq p c := by simpa using hle 0 (by simp)
      rw [scanBest, if_neg (by simp [ltInf]; exact hc)]
      exact ih (k + 1) bk b fun j hj => by simpa using hle (j + 1) (by simpa using hj)

lemma bestIndex_cons (p c : List ℚ) (rest : List (List ℚ)) :
    bestIndex p (c :: rest) = (scanBest p rest 1 (0, some (euclidean_sq p c))).1 := by
  rw [bestIndex, scanBest, if_pos (by simp [ltInf])]

lemma bestIndex_spec (p : List ℚ) (cs : List (List ℚ)) (hcs : cs ≠ []) :
    bestIndex p cs < cs.length ∧
      ∀ j, j < cs.length →
        euclidean_sq p (cs.getD (bestIndex p cs) []) ≤ euclidean_sq p (cs.getD j []) := by
  obtain ⟨c, rest, rfl⟩ := List.exists_cons_of_ne_nil hcs
  obtain ⟨r, v, heq, hvb, hloc, hall⟩ := scanBest_some p rest 1 0 (euclidean_sq p c)
  have hbi : bestIndex p (c :: rest) = r := by rw [bestIndex_cons, heq]
  have hval : euclidean_sq p ((c :: rest).getD r []) = v := by
    rcases hloc with ⟨hr, hv⟩ | ⟨j, hj, hr, hv⟩
    · rw [hr]; simpa using hv.symm
    · rw [hr, Nat.add_comm, List.getD_cons_succ]; exact hv.symm
  constructor
  · rw [hbi]
    rcases hloc with ⟨hr, _⟩ | ⟨j, hj, hr, _⟩
    · simp [hr]
    · simp only [List.length_cons, hr]; omega
  · intro j hj
    rw [hbi, hval]
    cases j with
    | zero => simpa using hvb
    | succ j => simpa using hall j (by simpa using hj)

/-- C3: in every assignment step each point goes to a centroid of
minimum Euclidean distance, and ties break toward the lowest index: a
point equidistant from centroid 0 and centroid 1 and at least as close
to centroid 0 as to every centroid is assigned to centroid 0, because
the scan updates the running best only on a strict decrease. -/
theorem kmeans_assignment_tie_break (p : List ℚ) (cs : List (List ℚ))
    (h2 : 2 ≤ cs.length)
    (heq : euclidean_sq p (cs.getD 0 []) = euclidean_sq p (cs.getD 1 []))
    (hmin : ∀ j, j < cs.length →
      euclidean_sq p (cs.getD 0 []) ≤ euclidean_sq p (cs.getD j [])) :
    (∀ j, j < cs.length →
      euclidean_sq p (cs.getD (bestIndex p cs) []) ≤ euclidean_sq p (cs.getD j [])) ∧
    bestIndex p cs = 0 := by
  have hcs : cs ≠ [] := by intro h; rw [h] at h2; simp at h2
  refine ⟨(bestIndex_spec p cs hcs).2, ?_⟩
  obtain ⟨c, rest, rfl⟩ := List.exists_cons_of_ne_nil hcs
  rw [bestIndex_cons, scanBest_stay p rest 1 0 (euclidean_sq p c)
    fun j hj => by simpa using hmin (j + 1) (by simpa using hj)]

theorem kmeans_assignment_tie_break_witness :
    (∀ j, j < ([[(0:ℚ)], [2]] : List (List ℚ)).length →
      euclidean_sq [1] (([[(0:ℚ)], [2]] : List (List ℚ)).getD
        (bestIndex [1] [[(0:ℚ)], [2]]) []) ≤
        euclidean_sq [1] (([[(0:ℚ)], [2]] : List (List ℚ)).getD j [])) ∧
    bestIndex [(1:ℚ)] [[(0:ℚ)], [2]] = 0 :=
  kmeans_assignment_tie_break [1] [[0], [2]] (by simp)
    (by norm_num [euclidean_sq])
    (by intro j hj
        simp only [List.length_cons, List.length_nil] at hj
        interval_cases j <;> norm_num [euclidean_sq])

/-!  General lemmas about the update step.  -/

lemma getD_map_range {α : Type} (f : Nat → α) (K k : Nat) (hk : k < K) (d : α) :
    ((List.range K).map f).getD k d = f k := by
  rw [List.getD_eq_getElem?_getD, List.getElem?_map, List.getElem?_range hk]
  rfl

lemma updateStep_getD (points cs : List (List ℚ)) (K dim k : Nat) (hk : k < K) :
    (updateStep points K dim cs).getD k [] =
      (if (clusterOf points cs k).isEmpty then cs.getD k []
       else clusterMean dim (clusterOf points cs k)) := by
  rw [updateStep, getD_map_range _ K k hk]

lemma updateStep_length (points cs : List (List ℚ)) (K dim : Nat) :
    (updateStep points K dim cs).length = K := by
  simp [updateStep]

lemma sumCoords_gen (dim : Nat) (i : Nat) (hi : i < dim) (l : List (List ℚ)) :
    ∀ s : List ℚ,
      (l.foldl
        (fun sums vec => (List.range dim).map (fun i => sums.getD i 0 + vec.getD i 0))
        s).getD i 0 = s.getD i 0 + (l.map (fun v => v.getD i 0)).sum := by
  induction l with
  | nil => intro s; simp
  | cons v l ih =>
      intro s
      rw [List.foldl_cons, ih, getD_map_range _ dim i hi]
      simp [add_assoc]

lemma sumCoords_getD (dim : Nat) (l : List (List ℚ)) (i : Nat) (hi : i < dim) :
    (sumCoords dim l).getD i 0 = (l.map (fun v => v.getD i 0)).sum := by
  rw [sumCoords, sumCoords_gen dim i hi l (List.replicate dim 0)]
  rw [List.getD_eq_getElem?_getD, List.getElem?_replicate, if_pos hi]
  simp

lemma sumCoords_gen_length (dim : Nat) (l : List (List ℚ)) :
    ∀ s : List ℚ, s.length = dim →
      (l.foldl
        (fun sums vec => (List.range dim).map (fun i => sums.getD i 0 + vec.getD i 0))
        s).length = dim := by
  induction l with
  | nil => intro s hs; simpa using hs
  | cons v l ih => intro s hs; rw [List.foldl_cons]; exact ih _ (by simp)

lemma sumCoords_length (dim : Nat) (l : List (List ℚ)) :
    (sumCoords dim l).length = dim :=
  sumCoords_gen_length dim l (List.replicate dim 0) (by simp)

lemma clusterMean_getD (dim : Nat) (l : List (List ℚ)) (i : Nat) (hi : i < dim) :
    (clusterMean dim l).getD i 0 =
      (l.map (fun v => v.getD i 0)).sum / (l.length : ℚ) := by
  have hlen : i < (sumCoords dim l).length := by rw [sumCoords_length]; exact hi
  rw [clusterMean, List.getD_eq_getElem?_getD, List.getElem?_map,
      List.getElem?_eq_getElem hlen]
  simp only [Option.map_some', Option.getD_some]
  rw [← List.getD_eq_getElem (sumCoords dim l) 0 hlen, sumCoords_getD dim l i hi]

/-- C4: in every update step, a cluster index with no assigned points
keeps its previous centroid unchanged, and a nonempty cluster's
centroid is replaced by the coordinate-wise arithmetic mean of its
assigned points (the new coordinate times the cluster size is the
coordinate sum over the cluster). -/
theorem kmeans_update_empty_keeps_centroid
    (points cs : List (List ℚ)) (K dim k : Nat) (hk : k < K) :
    (clusterOf points cs k = [] →
        (updateStep points K dim cs).getD k [] = cs.getD k []) ∧
    (clusterOf points cs k ≠ [] →
        (updateStep points K dim cs).getD k [] = clusterMean dim (clusterOf points cs k) ∧
        ∀ i, i < dim →
          (clusterMean dim (clusterOf points cs k)).getD i 0 *
              ((clusterOf points cs k).length : ℚ)
            = ((clusterOf points cs k).map (fun v => v.getD i 0)).sum) := by
  constructor
  · intro he
    rw [updateStep_getD points cs K dim k hk, if_pos (by simp [he])]
  · intro hne
    refine ⟨?_, ?_⟩
    · rw [updateStep_getD points cs K dim k hk,
        if_neg (by simpa [List.isEmpty_iff] using hne)]
    · intro i hi
      rw [clusterMean_getD dim _ i hi, div_mul_cancel₀]
      exact Nat.cast_ne_zero.mpr (by simpa [List.length_eq_zero] using hne)

theorem kmeans_update_empty_keeps_centroid_witness :
    (clusterOf [[(0:ℚ)]] [[0], [5]] 1 = [] →
        (updateStep [[(0:ℚ)]] 2 1 [[0], [5]]).getD 1 [] = ([[(0:ℚ)], [5]]).getD 1 []) ∧
    (clusterOf [[(0:ℚ)]] [[0], [5]] 1 ≠ [] →
        (updateStep [[(0:ℚ)]] 2 1 [[0], [5]]).getD 1 [] =
          clusterMean 1 (clusterOf [[(0:ℚ)]] [[0], [5]] 1) ∧
        ∀ i, i < 1 →
          (clusterMean 1 (clusterOf [[(0:ℚ)]] [[0], [5]] 1)).getD i 0 *
              ((clusterOf [[(0:ℚ)]] [[0], [5]] 1).length : ℚ)
            = ((clusterOf [[(0:ℚ)]] [[0], [5]] 1).map (fun v => v.getD i 0)).sum) :=
  kmeans_update_empty_keeps_centroid [[0]] [[0], [5]] 2 1 1 (by norm_num)

/-!  General lemmas about the iteration loop.  -/

lemma stepN_succ_in (points : List (List ℚ)) (K dim n : Nat) (cs : List (List ℚ)) :
    stepN points K dim (n + 1) cs = stepN points K dim n (updateStep points K dim cs) :=
  rfl

lemma stepN_succ_out (points : List (List ℚ)) (K dim : Nat) (n : Nat) :
    ∀ cs : List (List ℚ),
      stepN points K dim (n + 1) cs = updateStep points K dim (stepN points K dim n cs) := by
  induction n with
  | zero => intro cs; rfl
  | succ n ih =>
      intro cs
      calc stepN points K dim (n + 1 + 1) cs
          = stepN points K dim (n + 1) (updateStep points K dim cs) := rfl
        _ = updateStep points K dim (stepN points K dim n (updateStep points K dim cs)) :=
            ih _
        _ = updateStep points K dim (stepN points K dim (n + 1) cs) := rfl

lemma kmeansLoop_succ_conv (points : List (List ℚ)) (K dim : Nat) (eps : ℚ)
    (m : Nat) (cs : List (List ℚ))
    (h : convergedb eps cs (updateStep points K dim cs) = true) :
    kmeansLoop points K dim eps (m + 1) cs = cs := by
  simp only [kmeansLoop, h, if_true]

lemma kmeansLoop_succ_not (points : List (List ℚ)) (K dim : Nat) (eps : ℚ)
    (m : Nat) (cs : List (List ℚ))
    (h : convergedb eps cs (updateStep points K dim cs) = false) :
    kmeansLoop points K dim eps (m + 1) cs =
      kmeansLoop points K dim eps m (updateStep points K dim cs) := by
  simp only [kmeansLoop, h, Bool.false_eq_true, if_false]

lemma kmeansLoop_exit (points : List (List ℚ)) (K dim : Nat) (eps : ℚ) :
    ∀ (m : Nat) (cs : List (List ℚ)),
      convergedb eps (kmeansLoop points K dim eps m cs)
          (updateStep points K dim (kmeansLoop points K dim eps m cs)) = true ∨
        kmeansLoop points K dim eps m cs = stepN points K dim m cs := by
  intro m
  induction m with
  | zero => intro cs; exact Or.inr rfl
  | succ m ih =>
      intro cs
      by_cases h : convergedb eps cs (updateStep points K dim cs) = true
      · left
        rw [kmeansLoop_succ_conv points K dim eps m cs h]
        exact h
      · have h' := Bool.not_eq_true _ |>.mp h
        rw [kmeansLoop_succ_not points K dim eps m cs h']
        rcases ih (updateStep points K dim cs) with hc | he
        · exact Or.inl hc
        · exact Or.inr (by rw [he]; rfl)

/-- C1 (amended): whenever an iteration of `kmeans` computes a maximum
centroid shift strictly below `eps`, the loop stops at that iteration
and returns the centroid set from *before* that iteration's update
(the previous centroids), not the newly computed set: `break` is
executed before `centroids = new_centroids`. -/
theorem kmeans_converged_returns_preupdate
    (points : List (List ℚ)) (K dim : Nat) (eps : ℚ) (cs0 : List (List ℚ))
    (m t : Nat) (htm : t < m)
    (hbefore : ∀ s, s < t → convergedb eps (stepN points K dim s cs0)
        (stepN points K dim (s + 1) cs0) = false)
    (hconv : convergedb eps (stepN points K dim t cs0)
        (stepN points K dim (t + 1) cs0) = true) :
    kmeansLoop points K dim eps m cs0 = stepN points K dim t cs0 := by
  induction t generalizing m cs0 with
  | zero =>
      obtain ⟨m', rfl⟩ : ∃ m', m = m' + 1 := ⟨m - 1, by omega⟩
      have hc : convergedb eps cs0 (updateStep points K dim cs0) = true := hconv
      exact kmeansLoop_succ_conv points K dim eps m' cs0 hc
  | succ t ih =>
      obtain ⟨m', rfl⟩ : ∃ m', m = m' + 1 := ⟨m - 1, by omega⟩
      have h0 : convergedb eps cs0 (updateStep points K dim cs0) = false :=
        hbefore 0 (by omega)
      rw [kmeansLoop_succ_not points K dim eps m' cs0 h0]
      exact ih (updateStep points K dim cs0) m' (by omega)
        (fun s hs => hbefore (s + 1) (by omega)) hconv

theorem kmeans_converged_returns_preupdate_witness :
    (0 < 10) ∧
    (∀ s, s < 0 → convergedb 1 (stepN [[(0:ℚ)], [4], [5]] 2 1 s [[0], [4]])
        (stepN [[(0:ℚ)], [4], [5]] 2 1 (s + 1) [[0], [4]]) = false) ∧
    convergedb 1 (stepN [[(0:ℚ)], [4], [5]] 2 1 0 [[0], [4]])
        (stepN [[(0:ℚ)], [4], [5]] 2 1 1 [[0], [4]]) = true ∧
    kmeansLoop [[(0:ℚ)], [4], [5]] 2 1 1 10 [[0], [4]] =
      stepN [[(0:ℚ)], [4], [5]] 2 1 0 [[0], [4]] := by
  have hu : updateStep [[(0:ℚ)], [4], [5]] 2 1 [[0], [4]] = [[0], [9/2]] := by
    norm_num [updateStep, clusterOf, clusterMean, sumCoords, bestIndex, scanBest,
      euclidean_sq, ltInf, List.range_succ, List.filter_cons]
    simp
  have hc : convergedb 1 (stepN [[(0:ℚ)], [4], [5]] 2 1 0 [[0], [4]])
      (stepN [[(0:ℚ)], [4], [5]] 2 1 1 [[0], [4]]) = true := by
    simp only [stepN, hu]
    norm_num [convergedb, sqrtLtB, maxShiftSq, euclidean_sq]
  exact ⟨by norm_num, fun s hs => absurd hs (by omega), hc,
    kmeans_converged_returns_preupdate [[0], [4], [5]] 2 1 1 [[0], [4]] 10 0
      (by norm_num) (fun s hs => absurd hs (by omega)) hc⟩

theorem kmeans_c1_counterexample :
    updateStep [[(0:ℚ)], [4], [5]] 2 1 [[0], [4]] = [[0], [9/2]] ∧
    convergedb 1 [[(0:ℚ)], [4]] [[0], [9/2]] = true ∧
    kmeans [[(0:ℚ)], [4], [5]] 2 10 1 = [[0], [4]] ∧
    ([[(0:ℚ)], [4]] : List (List ℚ)) ≠ [[0], [9/2]] := by
  have hu : updateStep [[(0:ℚ)], [4], [5]] 2 1 [[0], [4]] = [[0], [9/2]] := by
    norm_num [updateStep, clusterOf, clusterMean, sumCoords, bestIndex, scanBest,
      euclidean_sq, ltInf, List.range_succ, List.filter_cons]
    simp
  have hc : convergedb 1 [[(0:ℚ)], [4]] [[0], [9/2]] = true := by
    norm_num [convergedb, sqrtLtB, maxShiftSq, euclidean_sq]
  refine ⟨hu, hc, ?_, by norm_num⟩
  simp only [kmeans]
  norm_num [kmeansLoop, hu, hc]

/-- C6 (amended): if the first `fit` call stopped through the
convergence break — equivalently, its output centroids pass the
convergence test against their own one-step update — then a second
call with that output as the initial centroids and the same points
converges immediately (max shift < eps in its first iteration, which
is the hypothesis) and returns exactly the same centroids.  A first
call that exhausted `max_iter` without converging carries no such
guarantee. -/
theorem kmeans_refit_converged_fixed
    (points : List (List ℚ)) (K dim : Nat) (eps : ℚ) (cs0 : List (List ℚ))
    (m m2 : Nat) (hm2 : 1 ≤ m2)
    (hconv : convergedb eps (kmeansLoop points K dim eps m cs0)
        (updateStep points K dim (kmeansLoop points K dim eps m cs0)) = true) :
    kmeansLoop points K dim eps m2 (kmeansLoop points K dim eps m cs0) =
      kmeansLoop points K dim eps m cs0 := by
  obtain ⟨m', rfl⟩ : ∃ m', m2 = m' + 1 := ⟨m2 - 1, by omega⟩
  exact kmeansLoop_succ_conv points K dim eps m' _ hconv

theorem kmeans_refit_converged_fixed_witness :
    (1 ≤ 10) ∧
    convergedb 1 (kmeansLoop [[(0:ℚ)], [4], [5]] 2 1 1 10 [[0], [4]])
        (updateStep [[(0:ℚ)], [4], [5]] 2 1
          (kmeansLoop [[(0:ℚ)], [4], [5]] 2 1 1 10 [[0], [4]])) = true ∧
    kmeansLoop [[(0:ℚ)], [4], [5]] 2 1 1 10
        (kmeansLoop [[(0:ℚ)], [4], [5]] 2 1 1 10 [[0], [4]]) =
      kmeansLoop [[(0:ℚ)], [4], [5]] 2 1 1 10 [[0], [4]] := by
  have hu : updateStep [[(0:ℚ)], [4], [5]] 2 1 [[0], [4]] = [[0], [9/2]] := by
    norm_num [updateStep, clusterOf, clusterMean, sumCoords, bestIndex, scanBest,
      euclidean_sq, ltInf, List.range_succ, List.filter_cons]
    simp
  have hc : convergedb 1 [[(0:ℚ)], [4]] [[0], [9/2]] = true := by
    norm_num [convergedb, sqrtLtB, maxShiftSq, euclidean_sq]
  have hrun : kmeansLoop [[(0:ℚ)], [4], [5]] 2 1 1 10 [[0], [4]] = [[0], [4]] := by
    norm_num [kmeansLoop, hu, hc]
  have hconv : convergedb 1 (kmeansLoop [[(0:ℚ)], [4], [5]] 2 1 1 10 [[0], [4]])
      (updateStep [[(0:ℚ)], [4], [5]] 2 1
        (kmeansLoop [[(0:ℚ)], [4], [5]] 2 1 1 10 [[0], [4]])) = true := by
    rw [hrun, hu]; exact hc
  exact ⟨by norm_num, hconv,
    kmeans_refit_converged_fixed [[0], [4], [5]] 2 1 1 [[0], [4]] 10 10
      (by norm_num) hconv⟩

theorem kmeans_c6_counterexample :
    kmeans [[(0:ℚ)], [2], [5], [6]] 2 1 (1/1000) = [[0], [13/3]] ∧
    kmeansLoop [[(0:ℚ)], [2], [5], [6]] 2 1 (1/1000) 1 [[0], [13/3]] = [[1], [11/2]] ∧
    convergedb (1/1000) [[(0:ℚ)], [13/3]]
      (updateStep [[(0:ℚ)], [2], [5], [6]] 2 1 [[0], [13/3]]) = false ∧
    ([[(1:ℚ)], [11/2]] : List (List ℚ)) ≠ [[0], [13/3]] := by
  have hu1 : updateStep [[(0:ℚ)], [2], [5], [6]] 2 1 [[0], [2]] = [[0], [13/3]] := by
    norm_num [updateStep, clusterOf, clusterMean, sumCoords, bestIndex, scanBest,
      euclidean_sq, ltInf, List.range_succ, List.filter_cons]
    simp
  have hv1 : convergedb (1/1000) [[(0:ℚ)], [2]] [[0], [13/3]] = false := by
    norm_num [convergedb, sqrtLtB, maxShiftSq, euclidean_sq]
  have hu2 : updateStep [[(0:ℚ)], [2], [5], [6]] 2 1 [[0], [13/3]] = [[1], [11/2]] := by
    norm_num [updateStep, clusterOf, clusterMean, sumCoords, bestIndex, scanBest,
      euclidean_sq, ltInf, List.range_succ, List.filter_cons]
    simp
  have hv2 : convergedb (1/1000) [[(0:ℚ)], [13/3]] [[1], [11/2]] = false := by
    norm_num [convergedb, sqrtLtB, maxShiftSq, euclidean_sq]
  refine ⟨?_, ?_, by rw [hu2]; exact hv2, by norm_num⟩
  · simp only [kmeans]
    norm_num [kmeansLoop, hu1, hv1]
  · norm_num [kmeansLoop, hu2, hv2]

/-- C8: `kmeans` terminates: the loop result is some `t ≤ max_iter`
fold of the assignment+update step over the initial centroids, and if
the convergence test never passes the loop stops unconditionally after
exactly `max_iter` iterations and returns the last computed centroid
set. -/
theorem kmeans_terminates_within_max_iter
    (points : List (List ℚ)) (K dim : Nat) (eps : ℚ) (m : Nat) (cs0 : List (List ℚ)) :
    (∃ t, t ≤ m ∧ kmeansLoop points K dim eps m cs0 = stepN points K dim t cs0) ∧
    ((∀ t, t < m → convergedb eps (stepN points K dim t cs0)
        (stepN points K dim (t + 1) cs0) = false) →
      kmeansLoop points K dim eps m cs0 = stepN points K dim m cs0) := by
  constructor
  · induction m generalizing cs0 with
    | zero => exact ⟨0, le_rfl, rfl⟩
    | succ m ih =>
        by_cases h : convergedb eps cs0 (updateStep points K dim cs0) = true
        · exact ⟨0, by omega, kmeansLoop_succ_conv points K dim eps m cs0 h⟩
        · have h' := Bool.not_eq_true _ |>.mp h
          obtain ⟨t, htm, ht⟩ := ih (updateStep points K dim cs0)
          exact ⟨t + 1, by omega,
            by rw [kmeansLoop_succ_not points K dim eps m cs0 h']; exact ht⟩
  · induction m generalizing cs0 with
    | zero => intro _; rfl
    | succ m ih =>
        intro hnever
        have h0 : convergedb eps cs0 (updateStep points K dim cs0) = false :=
          hnever 0 (by omega)
        rw [kmeansLoop_succ_not points K dim eps m cs0 h0]
        exact ih (updateStep points K dim cs0) fun t ht => hnever (t + 1) (by omega)

theorem kmeans_terminates_within_max_iter_witness :
    (∃ t, t ≤ 1 ∧ kmeansLoop [[(0:ℚ)], [2], [5], [6]] 2 1 (1/1000) 1 [[0], [2]] =
      stepN [[(0:ℚ)], [2], [5], [6]] 2 1 t [[0], [2]]) ∧
    ((∀ t, t < 1 → convergedb (1/1000) (stepN [[(0:ℚ)], [2], [5], [6]] 2 1 t [[0], [2]])
        (stepN [[(0:ℚ)], [2], [5], [6]] 2 1 (t + 1) [[0], [2]]) = false) →
      kmeansLoop [[(0:ℚ)], [2], [5], [6]] 2 1 (1/1000) 1 [[0], [2]] =
        stepN [[(0:ℚ)], [2], [5], [6]] 2 1 1 [[0], [2]]) :=
  kmeans_terminates_within_max_iter [[0], [2], [5], [6]] 2 1 (1/1000) 1 [[0], [2]]

/-- C9: on the points `{(0,0), (0,1), (10,10), (10,11)}` with `K = 2`,
`max_iter = 10`, `eps = 1/1000`, the loop started from the initial
centroids `(0,0)` and `(10,10)` converges to `(0, 1/2)` and
`(10, 21/2)`, in that order; the same centroids are returned by
`kmeans` itself, whose initial centroids are the first two points of
the list. -/
theorem kmeans_end_to_end_example :
    kmeansLoop [[(0:ℚ), 0], [0, 1], [10, 10], [10, 11]] 2 2 (1/1000) 10
        [[0, 0], [10, 10]] = [[0, 1/2], [10, 21/2]] ∧
    kmeans [[(0:ℚ), 0], [0, 1], [10, 10], [10, 11]] 2 10 (1/1000) =
      [[0, 1/2], [10, 21/2]] := by
  have ua : updateStep [[(0:ℚ), 0], [0, 1], [10, 10], [10, 11]] 2 2 [[0, 0], [10, 10]] =
      [[0, 1/2], [10, 21/2]] := by
    norm_num [updateStep, clusterOf, clusterMean, sumCoords, bestIndex, scanBest,
      euclidean_sq, ltInf, List.range_succ, List.filter_cons]
    all_goals simp
  have va : convergedb (1/1000) [[(0:ℚ), 0], [10, 10]] [[0, 1/2], [10, 21/2]] = false := by
    norm_num [convergedb, sqrtLtB, maxShiftSq, euclidean_sq]
  have ub : updateStep [[(0:ℚ), 0], [0, 1], [10, 10], [10, 11]] 2 2
      [[0, 1/2], [10, 21/2]] = [[0, 1/2], [10, 21/2]] := by
    norm_num [updateStep, clusterOf, clusterMean, sumCoords, bestIndex, scanBest,
      euclidean_sq, ltInf, List.range_succ, List.filter_cons]
    all_goals simp
  have vb : convergedb (1/1000) [[(0:ℚ), 1/2], [10, 21/2]] [[0, 1/2], [10, 21/2]] = true := by
    norm_num [convergedb, sqrtLtB, maxShiftSq, euclidean_sq]
  have uc : updateStep [[(0:ℚ), 0], [0, 1], [10, 10], [10, 11]] 2 2 [[0, 0], [0, 1]] =
      [[0, 0], [20/3, 22/3]] := by
    norm_num [updateStep, clusterOf, clusterMean, sumCoords, bestIndex, scanBest,
      euclidean_sq, ltInf, List.range_succ, List.filter_cons]
    all_goals simp
  have vc : convergedb (1/1000) [[(0:ℚ), 0], [0, 1]] [[0, 0], [20/3, 22/3]] = false := by
    norm_num [convergedb, sqrtLtB, maxShiftSq, euclidean_sq]
  have ud : updateStep [[(0:ℚ), 0], [0, 1], [10, 10], [10, 11]] 2 2
      [[0, 0], [20/3, 22/3]] = [[0, 1/2], [10, 21/2]] := by
    norm_num [updateStep, clusterOf, clusterMean, sumCoords, bestIndex, scanBest,
      euclidean_sq, ltInf, List.range_succ, List.filter_cons]
    all_goals simp
  have vd : convergedb (1/1000) [[(0:ℚ), 0], [20/3, 22/3]] [[0, 1/2], [10, 21/2]] = false := by
    norm_num [convergedb, sqrtLtB, maxShiftSq, euclidean_sq]
  constructor
  · norm_num [kmeansLoop, ua, va, ub, vb]
  · simp only [kmeans]
    norm_num [kmeansLoop, uc, vc, ud, vd, ub, vb]

/-!  General lemmas about the seeding model.  -/

lemma euclidean_sq_nonneg (p : List ℚ) : ∀ q : List ℚ, 0 ≤ euclidean_sq p q := by
  induction p with
  | nil => intro q; simp [euclidean_sq]
  | cons a p ih =>
      intro q
      cases q with
      | nil => simp [euclidean_sq]
      | cons b q =>
          have := ih q
          rw [euclidean_sq] at *
          simp only [List.zipWith_cons_cons, List.sum_cons]
          positivity

lemma foldl_min_nonneg (ds : List ℚ) :
    ∀ d : ℚ, 0 ≤ d → (∀ x ∈ ds, 0 ≤ x) → 0 ≤ ds.foldl min d := by
  induction ds with
  | nil => intro d hd _; simpa using hd
  | cons x ds ih =>
      intro d hd hall
      rw [List.foldl_cons]
      exact ih _ (le_min hd (hall x (by simp)))
        fun y hy => hall y (by simp [hy])

lemma minSqDistTo_nonneg (points : List (List ℚ)) (idxs : List Nat) (p : List ℚ) :
    0 ≤ minSqDistTo points idxs p := by
  rw [minSqDistTo]
  rcases h : idxs.map (fun i => euclidean_sq p (points.getD i [])) with _ | ⟨d, ds⟩
  · exact le_rfl
  · have hmem : ∀ x ∈ d :: ds, 0 ≤ x := by
      rw [← h]
      intro x hx
      obtain ⟨i, _, rfl⟩ := List.mem_map.mp hx
      exact euclidean_sq_nonneg p _
    exact foldl_min_nonneg ds d (hmem d (by simp)) fun y hy => hmem y (by simp [hy])

lemma getD_map_lt {α β : Type} (f : α → β) (l : List α) (i : Nat) (hi : i < l.length)
    (d : α) (d2 : β) : (l.map f).getD i d2 = f (l.getD i d) := by
  rw [List.getD_eq_getElem?_getD, List.getElem?_map, List.getElem?_eq_getElem hi]
  simp only [Option.map_some', Option.getD_some]
  rw [← List.getD_eq_getElem l d hi]

lemma sum_map_div (l : List ℚ) (c : ℚ) : (l.map (fun x => x / c)).sum = l.sum / c := by
  induction l with
  | nil => simp
  | cons x l ih => simp [ih, add_div]

lemma cumPick_ge (u : ℚ) : ∀ (p : List ℚ) (acc : ℚ) (i : Nat), i ≤ cumPick u p acc i := by
  intro p
  induction p with
  | nil => intro acc i; simp [cumPick]
  | cons q rest ih =>
      intro acc i
      rw [cumPick]
      by_cases h : u < acc + q
      · simp [h]
      · rw [if_neg h]
        exact (Nat.le_succ i).trans (ih (acc + q) (i + 1))

lemma cumPick_lt (u : ℚ) : ∀ (p : List ℚ) (acc : ℚ) (i : Nat),
    acc ≤ u → u < acc + p.sum → cumPick u p acc i < i + p.length := by
  intro p
  induction p with
  | nil =>
      intro acc i hle hlt
      exact absurd (hle.trans_lt (by simpa using hlt)) (lt_irrefl acc)
  | cons q rest ih =>
      intro acc i hle hlt
      rw [cumPick]
      by_cases h : u < acc + q
      · rw [if_pos h]; simp
      · rw [if_neg h]
        have := ih (acc + q) (i + 1) (not_lt.mp h) (by rw [List.sum_cons] at hlt; linarith)
        simpa [Nat.add_assoc, Nat.add_comm 1] using this

lemma cumPick_skips_zero (u : ℚ) : ∀ (p : List ℚ) (acc : ℚ) (i j : Nat),
    acc ≤ u → j < p.length → p.getD j 0 = 0 → cumPick u p acc i ≠ i + j := by
  intro p
  induction p with
  | nil => intro acc i j _ hj; simp at hj
  | cons q rest ih =>
      intro acc i j hle hj hz
      rw [cumPick]
      by_cases h : u < acc + q
      · rw [if_pos h]
        cases j with
        | zero =>
            simp only [List.getD_cons_zero] at hz
            rw [hz, add_zero] at h
            exact absurd (hle.trans_lt h) (lt_irrefl acc)
        | succ j => omega
      · rw [if_neg h]
        cases j with
        | zero =>
            intro hcontra
            have := cumPick_ge u rest (acc + q) (i + 1)
            omega
        | succ j =>
            have := ih (acc + q) (i + 1) j (not_lt.mp h)
              (by simpa using hj) (by simpa using hz)
            omega

lemma rngUnit_nonneg (g : RNG) : 0 ≤ (rngUnit g).1 := by
  rw [rngUnit]
  positivity

lemma rngUnit_lt_one (g : RNG) : (rngUnit g).1 < 1 := by
  rw [rngUnit]
  simp only [rngStep]
  rw [div_lt_one (by norm_num)]
  have h : g.state % 4294967296 < 4294967296 := Nat.mod_lt _ (by norm_num)
  exact_mod_cast h

lemma npChoiceWeighted_some (n : Nat) (p : List ℚ) (g : RNG) (j : Nat) (g2 : RNG)
    (h : npChoiceWeighted n p g = some (j, g2)) :
    p.length = n ∧ (∀ q ∈ p, 0 ≤ q) ∧ p.sum = 1 ∧
      j = cumPick (rngUnit g).1 p 0 0 ∧ j < n := by
  rw [npChoiceWeighted] at h
  by_cases hg : ((p.length == n) && p.all (fun q => decide (0 ≤ q)) &&
      decide (p.sum = 1)) = true
  · rw [if_pos hg] at h
    simp only [Bool.and_eq_true, beq_iff_eq, List.all_eq_true, decide_eq_true_eq] at hg
    obtain ⟨⟨hlen, hpos⟩, hsum⟩ := hg
    have hj : j = cumPick (rngUnit g).1 p 0 0 := by
      have := congrArg (fun o => (o.getD (0, g)).1) h
      simpa using this.symm
    refine ⟨hlen, fun q hq => hpos q hq, hsum, hj, ?_⟩
    rw [hj, ← hlen]
    have := cumPick_lt (rngUnit g).1 p 0 0 (rngUnit_nonneg g)
      (by rw [hsum, zero_add]; exact rngUnit_lt_one g)
    simpa using this
  · rw [if_neg hg] at h
    exact absurd h (by simp)

/-- C5: in each seeding round after the first centre, the sampling
probabilities are the per-point minimum squared distances to the
centres chosen so far divided by their total (each probability times
the total equals the distance), and a point whose minimum distance is
zero has probability zero and is never the selected index. -/
theorem kmeanspp_sampling_proportional_zero_excluded
    (points : List (List ℚ)) (idxs : List Nat) (g g2 : RNG) (j sel : Nat)
    (hj : j < points.length)
    (hzero : (ppDists points idxs).getD j 0 = 0)
    (hsel : npChoiceWeighted points.length
        ((ppDists points idxs).map (fun d => d / (ppDists points idxs).sum)) g
      = some (sel, g2)) :
    (∀ i, i < points.length →
      ((ppDists points idxs).map (fun d => d / (ppDists points idxs).sum)).getD i 0 *
          (ppDists points idxs).sum
        = (ppDists points idxs).getD i 0) ∧
    ((ppDists points idxs).map (fun d => d / (ppDists points idxs).sum)).getD j 0 = 0 ∧
    sel ≠ j := by
  obtain ⟨hlen, _, hsum, hjdef, _⟩ :=
    npChoiceWeighted_some points.length _ g sel g2 hsel
  have hdlen : (ppDists points idxs).length = points.length := by simp [ppDists]
  have hS : (ppDists points idxs).sum ≠ 0 := by
    intro h0
    rw [sum_map_div, h0] at hsum
    norm_num at hsum
  have hprop : ∀ i, i < points.length →
      ((ppDists points idxs).map (fun d => d / (ppDists points idxs).sum)).getD i 0 *
          (ppDists points idxs).sum
        = (ppDists points idxs).getD i 0 := by
    intro i hi
    rw [getD_map_lt _ _ i (by rw [hdlen]; exact hi) 0 0, div_mul_cancel₀ _ hS]
  have hpj : ((ppDists points idxs).map
      (fun d => d / (ppDists points idxs).sum)).getD j 0 = 0 := by
    rw [getD_map_lt _ _ j (by rw [hdlen]; exact hj) 0 0, hzero, zero_div]
  refine ⟨hprop, hpj, ?_⟩
  rw [hjdef]
  have := cumPick_skips_zero (rngUnit g).1 _ 0 0 j (rngUnit_nonneg g)
    (by rw [List.length_map, hdlen]; exact hj) hpj
  simpa using this

theorem kmeanspp_sampling_proportional_zero_excluded_witness :
    (1 < ([[(0:ℚ)], [1], [2]] : List (List ℚ)).length) ∧
    (ppDists [[(0:ℚ)], [1], [2]] [1]).getD 1 0 = 0 ∧
    npChoiceWeighted ([[(0:ℚ)], [1], [2]] : List (List ℚ)).length
        ((ppDists [[(0:ℚ)], [1], [2]] [1]).map
          (fun d => d / (ppDists [[(0:ℚ)], [1], [2]] [1]).sum)) (RNG.mk 0)
      = some (0, RNG.mk 1442695040888963407) ∧
    ((∀ i, i < ([[(0:ℚ)], [1], [2]] : List (List ℚ)).length →
      ((ppDists [[(0:ℚ)], [1], [2]] [1]).map
          (fun d => d / (ppDists [[(0:ℚ)], [1], [2]] [1]).sum)).getD i 0 *
          (ppDists [[(0:ℚ)], [1], [2]] [1]).sum
        = (ppDists [[(0:ℚ)], [1], [2]] [1]).getD i 0) ∧
    ((ppDists [[(0:ℚ)], [1], [2]] [1]).map
        (fun d => d / (ppDists [[(0:ℚ)], [1], [2]] [1]).sum)).getD 1 0 = 0 ∧
    (0 : Nat) ≠ 1) := by
  have hz : (ppDists [[(0:ℚ)], [1], [2]] [1]).getD 1 0 = 0 := by
    norm_num [ppDists, minSqDistTo, euclidean_sq]
  have hsel : npChoiceWeighted ([[(0:ℚ)], [1], [2]] : List (List ℚ)).length
      ((ppDists [[(0:ℚ)], [1], [2]] [1]).map
        (fun d => d / (ppDists [[(0:ℚ)], [1], [2]] [1]).sum)) (RNG.mk 0)
      = some (0, RNG.mk 1442695040888963407) := by
    norm_num [ppDists, minSqDistTo, euclidean_sq, npChoiceWeighted, rngUnit,
      rngStep, cumPick]
  exact ⟨by norm_num, hz, hsel,
    kmeanspp_sampling_proportional_zero_excluded [[0], [1], [2]] [1]
      (RNG.mk 0) (RNG.mk 1442695040888963407) 1 0 (by norm_num) hz hsel⟩

lemma getD_replicate_lt {α : Type} (n i : Nat) (hi : i < n) (a d : α) :
    (List.replicate n a).getD i d = a := by
  rw [List.getD_eq_getElem?_getD, List.getElem?_replicate, if_pos hi]
  rfl

lemma ppDists_all_same (n idx0 : Nat) (hidx : idx0 < n) :
    ppDists (List.replicate n [(0:ℚ)]) [idx0] = List.replicate n 0 := by
  rw [ppDists, List.map_replicate]
  have : minSqDistTo (List.replicate n [(0:ℚ)]) [idx0] [0] = 0 := by
    rw [minSqDistTo]
    simp only [List.map_cons, List.map_nil, getD_replicate_lt n idx0 hidx]
    norm_num [euclidean_sq]
  rw [this]

lemma ppRounds_degenerate (n idx0 : Nat) (hidx : idx0 < n) (g : RNG) (t : Nat) :
    ppRounds (List.replicate n [(0:ℚ)]) n (t + 1) [idx0] g = none := by
  have hd := ppDists_all_same n idx0 hidx
  have hsum : (ppDists (List.replicate n [(0:ℚ)]) [idx0]).sum = 0 := by
    rw [hd, List.sum_replicate, smul_zero]
  have hguard : npChoiceWeighted n
      ((ppDists (List.replicate n [(0:ℚ)]) [idx0]).map
        (fun d => d / (ppDists (List.replicate n [(0:ℚ)]) [idx0]).sum)) g = none := by
    rw [npChoiceWeighted, if_neg]
    intro hcontra
    simp only [Bool.and_eq_true, decide_eq_true_eq] at hcontra
    have := hcontra.2
    rw [sum_map_div, hsum] at this
    norm_num at this
  rw [ppRounds, hguard]

/-- C2: the spec requires that degenerate seeding (all candidate
minimum distances zero, e.g. a single point repeated `N` times with
`K = 2`) must not crash: the implementation must fall back to a
uniform distribution or surface a distinguishable failure.  The code
has no such guard: `probs = dists / dists.sum()` divides by the zero
total and the subsequent `np.random.choice` call raises, i.e. the call
aborts (modelled as `none`) instead of returning a seeding. -/
theorem kmeanspp_degenerate_seeding_crashes (g : RNG) (n : Nat) (hn : 2 ≤ n) :
    kmeans_pp_init g (List.replicate n [(0:ℚ)]) 2 = none := by
  rw [kmeans_pp_init]
  have hl : (List.replicate n [(0:ℚ)]).length = n := List.length_replicate n _
  have hu : npChoiceUniform (List.replicate n [(0:ℚ)]).length (npSeed 1234) =
      some ((rngStep (npSeed 1234)).1 % n, (rngStep (npSeed 1234)).2) := by
    rw [npChoiceUniform, if_neg (by omega), hl]
  rw [hu]
  have hidx : (rngStep (npSeed 1234)).1 % n < n := Nat.mod_lt _ (by omega)
  rw [hl]
  exact ppRounds_degenerate n _ hidx _ 0

theorem kmeanspp_degenerate_seeding_crashes_witness :
    2 ≤ 3 ∧ kmeans_pp_init (RNG.mk 0) (List.replicate 3 [(0:ℚ)]) 2 = none :=
  ⟨by norm_num, kmeanspp_degenerate_seeding_crashes (RNG.mk 0) 3 (by norm_num)⟩

lemma ppRounds_shape (points : List (List ℚ)) :
    ∀ (t : Nat) (idxs : List Nat) (g : RNG) (res : List Nat),
      ppRounds points points.length t idxs g = some res →
      (∀ i ∈ idxs, i < points.length) →
      res.length = idxs.length + t ∧ ∀ i ∈ res, i < points.length := by
  intro t
  induction t with
  | zero =>
      intro idxs g res h hmem
      rw [ppRounds] at h
      injection h with h
      subst h
      exact ⟨by omega, hmem⟩
  | succ t ih =>
      intro idxs g res h hmem
      rw [ppRounds] at h
      rcases hw : npChoiceWeighted points.length
          ((ppDists points idxs).map
            (fun d => d / (ppDists points idxs).sum)) g with _ | ⟨j, g2⟩
      · rw [hw] at h
        exact absurd h (by simp)
      · rw [hw] at h
        obtain ⟨_, _, _, _, hjlt⟩ := npChoiceWeighted_some _ _ _ _ _ hw
        obtain ⟨hlen, hres⟩ := ih (idxs ++ [j]) g2 res h (by
          intro i hi
          rcases List.mem_append.mp hi with h1 | h2
          · exact hmem i h1
          · simp only [List.mem_singleton] at h2
            subst h2
            exact hjlt)
        refine ⟨?_, hres⟩
        rw [hlen, List.length_append]
        simp only [List.length_singleton]
        omega

/-- C10 (amended): `kmeans_pp_init` reseeds the global generator with
the constant 1234 on every call, so its result is independent of the
incoming generator state — two calls with the same points and `K`
behave identically; and for `K ≥ 1`, whenever a result list is
returned (the call does not abort), it has length exactly `K` and each
entry is a valid point index below `N`.  For `K = 0` the code still
returns the uniformly chosen first index, a list of length 1. -/
theorem kmeanspp_deterministic_and_shape (g1 g2 : RNG) (points : List (List ℚ)) (K : Nat) :
    kmeans_pp_init g1 points K = kmeans_pp_init g2 points K ∧
    (1 ≤ K → ∀ res, kmeans_pp_init g1 points K = some res →
      res.length = K ∧ ∀ i ∈ res, i < points.length) := by
  refine ⟨rfl, ?_⟩
  intro hK res hres
  rw [kmeans_pp_init] at hres
  by_cases hN : points.length = 0
  · rw [npChoiceUniform, if_pos hN] at hres
    exact absurd hres (by simp)
  · have hu : npChoiceUniform points.length (npSeed 1234) =
        some ((rngStep (npSeed 1234)).1 % points.length, (rngStep (npSeed 1234)).2) := by
      rw [npChoiceUniform, if_neg hN]
    rw [hu] at hres
    obtain ⟨hlen, hmem⟩ := ppRounds_shape points (K - 1) _ _ res hres (by
      intro i hi
      simp only [List.mem_singleton] at hi
      subst hi
      exact Nat.mod_lt _ (by omega))
    refine ⟨?_, hmem⟩
    simp only [List.length_singleton] at hlen
    omega

theorem kmeanspp_c10_counterexample :
    kmeans_pp_init (RNG.mk 0) [[(0:ℚ)]] 0 = some [0] ∧ ([0] : List Nat).length ≠ 0 := by
  constructor
  · norm_num [kmeans_pp_init, npChoiceUniform, npSeed, rngStep, ppRounds]
  · norm_num

theorem kmeanspp_deterministic_and_shape_witness :
    kmeans_pp_init (RNG.mk 5) [[(0:ℚ)], [1], [2]] 2 =
      kmeans_pp_init (RNG.mk 7) [[(0:ℚ)], [1], [2]] 2 ∧
    (1 ≤ 2) ∧
    kmeans_pp_init (RNG.mk 5) [[(0:ℚ)], [1], [2]] 2 = some [1, 0] ∧
    (([1, 0] : List Nat).length = 2 ∧
      ∀ i ∈ ([1, 0] : List Nat), i < ([[(0:ℚ)], [1], [2]] : List (List ℚ)).length) := by
  have hres : kmeans_pp_init (RNG.mk 5) [[(0:ℚ)], [1], [2]] 2 = some [1, 0] := by
    norm_num [kmeans_pp_init, npChoiceUniform, npSeed, rngStep, ppRounds, ppDists,
      minSqDistTo, euclidean_sq, npChoiceWeighted, rngUnit, cumPick]
  exact ⟨(kmeanspp_deterministic_and_shape (RNG.mk 5) (RNG.mk 7) [[0], [1], [2]] 2).1,
    by norm_num, hres,
    (kmeanspp_deterministic_and_shape (RNG.mk 5) (RNG.mk 7) [[0], [1], [2]] 2).2
      (by norm_num) [1, 0] hres⟩

/-!  Lemmas for the monotonicity of the Lloyd objective.  -/

lemma euclidean_sq_eq_range : ∀ (dim : Nat) (v c : List ℚ), v.length = dim →
    c.length = dim →
    euclidean_sq v c = ∑ i in Finset.range dim, (v.getD i 0 - c.getD i 0) ^ 2 := by
  intro dim
  induction dim with
  | zero =>
      intro v c hv hc
      rw [List.length_eq_zero] at hv hc
      subst hv; subst hc
      simp [euclidean_sq]
  | succ d ih =>
      intro v c hv hc
      cases v with
      | nil => simp at hv
      | cons a v =>
          cases c with
          | nil => simp at hc
          | cons b c =>
              simp only [List.length_cons, Nat.succ.injEq] at hv hc
              rw [Finset.sum_range_succ']
              simp only [List.getD_cons_succ, List.getD_cons_zero]
              rw [euclidean_sq, List.zipWith_cons_cons, List.sum_cons,
                ← euclidean_sq, ih v c hv hc]
              ring

lemma map_sum_comm (C : List (List ℚ)) (s : Finset Nat) (h : List ℚ → Nat → ℚ) :
    (C.map (fun v => ∑ i in s, h v i)).sum = ∑ i in s, (C.map (fun v => h v i)).sum := by
  induction C with
  | nil => simp
  | cons v C ih =>
      simp only [List.map_cons, List.sum_cons, ih]
      rw [← Finset.sum_add_distrib]

lemma sum_sq_dev (xs : List ℚ) (c m : ℚ) :
    (xs.map (fun x => (x - c) ^ 2)).sum =
      (xs.map (fun x => (x - m) ^ 2)).sum + 2 * (m - c) * (xs.sum - xs.length * m)
        + xs.length * (m - c) ^ 2 := by
  induction xs with
  | nil => simp
  | cons x xs ih =>
      simp only [List.map_cons, List.sum_cons, List.length_cons, ih]
      push_cast
      ring

lemma sum_sq_dev_mean_le (xs : List ℚ) (c : ℚ) (hne : xs ≠ []) :
    (xs.map (fun x => (x - xs.sum / xs.length) ^ 2)).sum ≤
      (xs.map (fun x => (x - c) ^ 2)).sum := by
  have hn : (xs.length : ℚ) ≠ 0 :=
    Nat.cast_ne_zero.mpr (by simpa [List.length_eq_zero] using hne)
  have hzero : xs.sum - xs.length * (xs.sum / xs.length) = 0 := by
    field_simp
  have := sum_sq_dev xs c (xs.sum / xs.length)
  rw [hzero, mul_zero, add_zero] at this
  rw [this]
  have hsq : 0 ≤ (xs.length : ℚ) * (xs.sum / xs.length - c) ^ 2 := by positivity
  linarith

lemma clusterMean_length (dim : Nat) (l : List (List ℚ)) :
    (clusterMean dim l).length = dim := by
  rw [clusterMean, List.length_map, sumCoords_length]

lemma getD_mem {α : Type} (l : List α) (i : Nat) (hi : i < l.length) (d : α) :
    l.getD i d ∈ l := by
  rw [List.getD_eq_getElem l d hi]
  exact List.getElem_mem hi

set_option maxHeartbeats 2000000 in
lemma cluster_mean_min (dim : Nat) (C : List (List ℚ)) (hne : C ≠ [])
    (hdim : ∀ v ∈ C, v.length = dim) (c : List ℚ) (hc : c.length = dim) :
    (C.map (fun v => euclidean_sq v (clusterMean dim C))).sum ≤
      (C.map (fun v => euclidean_sq v c)).sum := by
  have hml : (clusterMean dim C).length = dim := clusterMean_length dim C
  have hL1 : C.map (fun v => euclidean_sq v (clusterMean dim C)) =
      C.map (fun v => ∑ i in Finset.range dim,
        (v.getD i 0 - (clusterMean dim C).getD i 0) ^ 2) :=
    List.map_congr_left fun v hv => euclidean_sq_eq_range dim v _ (hdim v hv) hml
  have hL : (C.map (fun v => euclidean_sq v (clusterMean dim C))).sum =
      ∑ i in Finset.range dim,
        (C.map (fun v => (v.getD i 0 - (clusterMean dim C).getD i 0) ^ 2)).sum := by
    rw [hL1, map_sum_comm]
  have hR1 : C.map (fun v => euclidean_sq v c) =
      C.map (fun v => ∑ i in Finset.range dim, (v.getD i 0 - c.getD i 0) ^ 2) :=
    List.map_congr_left fun v hv => euclidean_sq_eq_range dim v c (hdim v hv) hc
  have hR : (C.map (fun v => euclidean_sq v c)).sum =
      ∑ i in Finset.range dim,
        (C.map (fun v => (v.getD i 0 - c.getD i 0) ^ 2)).sum := by
    rw [hR1, map_sum_comm]
  rw [hL, hR]
  apply Finset.sum_le_sum
  intro i hi
  have hi' : i < dim := Finset.mem_range.mp hi
  have hmean : (clusterMean dim C).getD i 0 =
      (C.map (fun v => v.getD i 0)).sum / ((C.map (fun v => v.getD i 0)).length : ℚ) := by
    rw [clusterMean_getD dim C i hi', List.length_map]
  have h1 : C.map (fun v => (v.getD i 0 - (clusterMean dim C).getD i 0) ^ 2) =
      (C.map (fun v => v.getD i 0)).map
        (fun x => (x - (C.map (fun v => v.getD i 0)).sum /
          ((C.map (fun v => v.getD i 0)).length : ℚ)) ^ 2) := by
    rw [List.map_map, hmean]
    rfl
  have h2 : C.map (fun v => (v.getD i 0 - c.getD i 0) ^ 2) =
      (C.map (fun v => v.getD i 0)).map (fun x => (x - c.getD i 0) ^ 2) := by
    rw [List.map_map]
    rfl
  rw [h1, h2]
  exact sum_sq_dev_mean_le (C.map (fun v => v.getD i 0)) (c.getD i 0)
    (by simpa using hne)

lemma sum_over_clusters (cs : List (List ℚ)) (K : Nat) (f : List ℚ → Nat → ℚ) :
    ∀ points : List (List ℚ), (∀ p ∈ points, bestIndex p cs < K) →
      (points.map (fun p => f p (bestIndex p cs))).sum =
        ∑ k in Finset.range K, ((clusterOf points cs k).map (fun p => f p k)).sum := by
  intro points
  induction points with
  | nil => intro _; simp [clusterOf]
  | cons p rest ih =>
      intro hall
      have hp : bestIndex p cs < K := hall p (by simp)
      have hrest := ih fun q hq => hall q (by simp [hq])
      simp only [List.map_cons, List.sum_cons, hrest]
      have hsplit : ∀ k, ((clusterOf (p :: rest) cs k).map (fun q => f q k)).sum =
          (if bestIndex p cs = k then f p k else 0) +
            ((clusterOf rest cs k).map (fun q => f q k)).sum := by
        intro k
        rw [clusterOf, List.filter_cons]
        by_cases hbk : bestIndex p cs = k
        · rw [if_pos (by simpa using hbk), if_pos hbk]
          simp [clusterOf]
        · rw [if_neg (by simpa using hbk), if_neg hbk]
          simp [clusterOf]
      rw [Finset.sum_congr rfl fun k _ => hsplit k, Finset.sum_add_distrib,
        Finset.sum_ite_eq (Finset.range K) (bestIndex p cs) fun k => f p k,
        if_pos (Finset.mem_range.mpr hp)]

lemma cost_le_alt (points cs : List (List ℚ)) (hcs : cs ≠ []) (a : List ℚ → Nat)
    (ha : ∀ p ∈ points, a p < cs.length) :
    cost points cs ≤ (points.map (fun p => euclidean_sq p (cs.getD (a p) []))).sum := by
  rw [cost]
  apply List.sum_le_sum
  intro p hp
  exact (bestIndex_spec p cs hcs).2 (a p) (ha p hp)

lemma updateStep_dim (points cs : List (List ℚ)) (K dim : Nat) (hKlen : cs.length = K)
    (hcd : ∀ c ∈ cs, c.length = dim) :
    ∀ c ∈ updateStep points K dim cs, c.length = dim := by
  intro c hc
  rw [updateStep] at hc
  obtain ⟨k, hk, hck⟩ := List.mem_map.mp hc
  have hkK : k < K := List.mem_range.mp hk
  rw [← hck]
  show (let cluster := clusterOf points cs k;
    if cluster.isEmpty then cs.getD k [] else clusterMean dim cluster).length = dim
  simp only []
  by_cases he : (clusterOf points cs k).isEmpty
  · rw [if_pos he]
    exact hcd _ (getD_mem cs k (by omega) [])
  · rw [if_neg he]
    exact clusterMean_length dim _

lemma stepN_inv (points : List (List ℚ)) (K dim : Nat) (cs0 : List (List ℚ))
    (hKlen : cs0.length = K) (hcd : ∀ c ∈ cs0, c.length = dim) :
    ∀ t, (stepN points K dim t cs0).length = K ∧
      ∀ c ∈ stepN points K dim t cs0, c.length = dim := by
  intro t
  induction t with
  | zero => exact ⟨hKlen, hcd⟩
  | succ t ih =>
      rw [stepN_succ_out]
      exact ⟨updateStep_length points _ K dim,
        updateStep_dim points _ K dim ih.1 ih.2⟩

lemma cost_step_le (points cs : List (List ℚ)) (K dim : Nat)
    (hK1 : 1 ≤ K) (hKlen : cs.length = K)
    (hdim : ∀ p ∈ points, p.length = dim) (hcd : ∀ c ∈ cs, c.length = dim) :
    cost points (updateStep points K dim cs) ≤ cost points cs := by
  have hcs_ne : cs ≠ [] := by
    intro h
    rw [h] at hKlen
    simp at hKlen
    omega
  have hncs_len : (updateStep points K dim cs).length = K :=
    updateStep_length points cs K dim
  have hncs_ne : updateStep points K dim cs ≠ [] := by
    intro h
    rw [h] at hncs_len
    simp at hncs_len
    omega
  have hboundK : ∀ p ∈ points, bestIndex p cs < K := fun p hp => by
    rw [← hKlen]
    exact (bestIndex_spec p cs hcs_ne).1
  have hA := cost_le_alt points (updateStep points K dim cs) hncs_ne
    (fun p => bestIndex p cs) (fun p hp => by rw [hncs_len]; exact hboundK p hp)
  refine hA.trans ?_
  rw [cost, sum_over_clusters cs K
      (fun p k => euclidean_sq p ((updateStep points K dim cs).getD k [])) points hboundK,
    sum_over_clusters cs K (fun p k => euclidean_sq p (cs.getD k [])) points hboundK]
  apply Finset.sum_le_sum
  intro k hk
  have hkK : k < K := Finset.mem_range.mp hk
  by_cases hCe : clusterOf points cs k = []
  · simp [hCe]
  · have hgetD : (updateStep points K dim cs).getD k [] =
        clusterMean dim (clusterOf points cs k) := by
      rw [updateStep_getD points cs K dim k hkK,
        if_neg (by simpa [List.isEmpty_iff] using hCe)]
    rw [hgetD]
    exact cluster_mean_min dim (clusterOf points cs k) hCe
      (fun v hv => hdim v (List.mem_filter.mp hv).1) (cs.getD k [])
      (hcd _ (getD_mem cs k (by omega) []))

/-- C7: the Lloyd objective — the total within-cluster sum of squared
distances of every point to its assigned centroid — is non-increasing
from each iteration of `kmeans` to the next: one assignment+update
step never increases it, at every iterate of the run. -/
theorem kmeans_wcss_monotone (points : List (List ℚ)) (K dim : Nat)
    (cs0 : List (List ℚ)) (t : Nat) (hK1 : 1 ≤ K) (hKlen : cs0.length = K)
    (hdim : ∀ p ∈ points, p.length = dim) (hcd : ∀ c ∈ cs0, c.length = dim) :
    cost points (stepN points K dim (t + 1) cs0) ≤
      cost points (stepN points K dim t cs0) := by
  obtain ⟨hlen, hdims⟩ := stepN_inv points K dim cs0 hKlen hcd t
  rw [stepN_succ_out]
  exact cost_step_le points _ K dim hK1 hlen hdim hdims

theorem kmeans_wcss_monotone_witness :
    (1 ≤ 2) ∧
    ([[(0:ℚ)], [1]] : List (List ℚ)).length = 2 ∧
    (∀ p ∈ ([[(0:ℚ)], [1], [4]] : List (List ℚ)), p.length = 1) ∧
    (∀ c ∈ ([[(0:ℚ)], [1]] : List (List ℚ)), c.length = 1) ∧
    cost [[(0:ℚ)], [1], [4]] (stepN [[(0:ℚ)], [1], [4]] 2 1 1 [[0], [1]]) ≤
      cost [[(0:ℚ)], [1], [4]] (stepN [[(0:ℚ)], [1], [4]] 2 1 0 [[0], [1]]) := by
  have hdim : ∀ p ∈ ([[(0:ℚ)], [1], [4]] : List (List ℚ)), p.length = 1 := by
    intro p hp
    simp only [List.mem_cons, List.not_mem_nil, or_false] at hp
    rcases hp with rfl | rfl | rfl <;> rfl
  have hcd : ∀ c ∈ ([[(0:ℚ)], [1]] : List (List ℚ)), c.length = 1 := by
    intro c hc
    simp only [List.mem_cons, List.not_mem_nil, or_false] at hc
    rcases hc with rfl | rfl <;> rfl
  exact ⟨by norm_num, by norm_num, hdim, hcd,
    kmeans_wcss_monotone [[0], [1], [4]] 2 1 [[0], [1]] 0 (by norm_num) (by norm_num)
      hdim hcd⟩
